import Mathlib

/-!
# Verification of the EE315 layered communication-link simulator

Shallow embedding of the core of the repository (`main.py` /
`mingled/simulation_core.py`): the bit-level frame codec (`Packet.to_bits` /
`Packet.from_bits` with the additive "CRC-8" checksum), the multi-scheme
modem (`Modem.modulate` / `Modem.demodulate` with cross-correlation
synchronization, as in `simulation_core.py`), and the stop-and-wait ARQ
endpoint (`Host.send` / `Host.receive` / `Host.check_timeouts`).

Conventions of the embedding:
* Python bit lists (`[0, 1, ...]`, ints) are `List ℕ`.
* Python strings are represented by their character-code sequences
  (`List ℕ`), since the code only ever maps characters through `ord`/`chr`.
* Analog samples (`numpy` float arrays) are `List ℚ`: all the sample values
  the ASK scheme produces and compares are exact (`±1.0`, threshold `0.3`,
  `1.0`), so rational arithmetic reproduces the float computation exactly
  on the noiseless paths the claims quantify over.  The BPSK/FSK carriers
  are sampled sines (irrational); they appear as parameters of the `Modem`
  structure, never as hard-coded values.
* Side effects (`print`, the global `SIM_EVENTS` log via `record_event`)
  and the unused `cable` / `server_files` fields are not part of the state
  the claims talk about and are omitted; `_handle_app_layer` is pure and
  its result is discarded by `receive` in `simulation_core.py`.
-/

/-- Helper for `natBin`: structural recursion on a fuel argument so that
the definition evaluates inside the kernel; `natBin_succ` below recovers
the clean recursion `natBin n = natBin (n / 2) ++ [n % 2]`. -/
def natBinAux : ℕ → ℕ → List ℕ
  | _, 0 => []
  | 0, _ + 1 => []
  | fuel + 1, n + 1 => natBinAux fuel ((n + 1) / 2) ++ [(n + 1) % 2]

/-- `bin(n)[2:]` of Python for `n > 0`: big-endian binary digits, no
leading zeros; `[]` for `0` (the `0` case is handled by `pyBin`). -/
def natBin (n : ℕ) : List ℕ := natBinAux n n

/-- Python's `bin(n)[2:]`: `bin(0)` is `'0b0'`, i.e. the digit list `[0]`. -/
def pyBin (n : ℕ) : List ℕ := if n = 0 then [0] else natBin n

/-- Python's `str.zfill k`: left-pad with zeros up to length `k`
(longer inputs are returned unchanged, exactly as in Python). -/
def zfill (k : ℕ) (l : List ℕ) : List ℕ := List.replicate (k - l.length) 0 ++ l

/-- `[int(b) for b in bin(n)[2:].zfill(8)]` — the 8-bit (or longer, if
`n ≥ 256`!) big-endian rendering used throughout the source. -/
def natToBits8 (n : ℕ) : List ℕ := zfill 8 (pyBin n)

/-- `int("".join(map(str, bits)), 2)` for bit lists: big-endian binary
value.  (On genuine `0/1` bits this is exactly the Python expression;
Python would raise on other digits, which never arise in the source.) -/
def bitsToInt (bits : List ℕ) : ℕ := bits.foldl (fun a b => 2 * a + b) 0

/-- `Utils.str_to_bits`: each character code through `bin(ord(c))[2:].zfill(8)`. -/
def str_to_bits (codes : List ℕ) : List ℕ := codes.flatMap natToBits8

/-- Helper for `bits_to_str`: structural recursion on fuel (each step
consumes 8 bits, so `bits.length` units of fuel always suffice);
`bits_to_str_eq` below recovers the source's loop. -/
def bitsToStrAux : ℕ → List ℕ → List ℕ
  | 0, _ => []
  | fuel + 1, bits =>
    if 8 ≤ bits.length then bitsToInt (bits.take 8) :: bitsToStrAux fuel (bits.drop 8)
    else []

/-- `Utils.bits_to_str`: consume 8-bit chunks, stopping at a partial chunk. -/
def bits_to_str (bits : List ℕ) : List ℕ := bitsToStrAux bits.length bits

/-- `Utils.calculate_crc`: the additive "CRC-8" — `sum(bits) % 256`,
rendered as 8 bits. -/
def calculate_crc (bits : List ℕ) : List ℕ := natToBits8 (bits.sum % 256)

/-- Frame kind: `packet.type` is the string `'DATA'` or `'ACK'` in the source. -/
inductive PType where
  | DATA : PType
  | ACK : PType

deriving DecidableEq, Repr

/-- The `Packet` object: `src`, `dst`, `type`, `seq` and the payload
string (as character codes). -/
structure Packet where
  src : ℕ
  dst : ℕ
  type : PType
  seq : ℕ
  payload : List ℕ

deriving DecidableEq, Repr

/-- The header part of `Packet.to_bits`:
`src_bits + dst_bits + type_bits + seq_bits + len_bits`.
TYPE is `1` for `'DATA'` and `2` for `'ACK'` (`main.py`'s
`type_map.get(self.type, 0)` and `simulation_core.py`'s
`1 if self.type=='DATA' else 2` agree on these two values). -/
def headerBits (p : Packet) : List ℕ :=
  natToBits8 p.src ++ natToBits8 p.dst
    ++ natToBits8 (if p.type = PType.DATA then 1 else 2)
    ++ natToBits8 (p.seq % 256)
    ++ natToBits8 ((str_to_bits p.payload).length / 8)

/-- `Packet.to_bits`: header, payload bits, then the additive checksum of
everything before it. -/
def Packet.to_bits (p : Packet) : List ℕ :=
  headerBits p ++ str_to_bits p.payload
    ++ calculate_crc (headerBits p ++ str_to_bits p.payload)

/-- `Packet.from_bits`: minimum-length check, field extraction,
declared-length check, checksum check; `None` on any failure. -/
def Packet.from_bits (bits : List ℕ) : Option Packet :=
  if bits.length < 48 then none
  else
    let src := bitsToInt (bits.take 8)
    let dst := bitsToInt ((bits.drop 8).take 8)
    let type_int := bitsToInt ((bits.drop 16).take 8)
    let seq := bitsToInt ((bits.drop 24).take 8)
    let length := bitsToInt ((bits.drop 32).take 8)
    let payload_end := 40 + length * 8
    if bits.length < payload_end + 8 then none
    else
      let payload_bits := (bits.drop 40).take (length * 8)
      let received_crc := (bits.drop payload_end).take 8
      let calculated_crc := calculate_crc (bits.take payload_end)
      if received_crc ≠ calculated_crc then none
      else
        some ⟨src, dst, if type_int = 1 then PType.DATA else PType.ACK,
              seq, bits_to_str payload_bits⟩

/-- Modulation scheme selector (`'ASK'`, `'BPSK'`, `'FSK'`). -/
inductive Scheme where
  | ASK : Scheme
  | BPSK : Scheme
  | FSK : Scheme

deriving DecidableEq, Repr

/-- An analog waveform: a list of real-valued samples, modeled over `ℚ`. -/
abbrev Waveform := List ℚ

/-- The synchronization preamble `[1, 0, 1, 0, 1, 0, 1, 0]`. -/
def preamble : List ℕ := [1, 0, 1, 0, 1, 0, 1, 0]

/-- The `Modem` object of `simulation_core.py`.  `samples_per_bit` is the
constructor parameter (default 20).  The carrier fields hold the sampled
sinusoids precomputed in `__init__` (`np.sin`/`np.cos` of irrational
arguments — kept as parameters of the embedding; no claim depends on
their numeric values, only on the exact `±1.0` ASK samples). -/
structure Modem where
  samples_per_bit : ℕ
  carrier_bpsk : Waveform
  carrier_f1 : Waveform
  carrier_f2 : Waveform
  cos_f1 : Waveform
  sin_f1 : Waveform
  cos_f2 : Waveform
  sin_f2 : Waveform

deriving DecidableEq, Repr

/-- `Modem._generate_waveform`: per-bit waveform concatenation. -/
def generate_waveform (m : Modem) (bits : List ℕ) : Scheme → Waveform
  | Scheme.ASK =>
    bits.flatMap fun b => List.replicate m.samples_per_bit (if b = 1 then (1 : ℚ) else -1)
  | Scheme.BPSK =>
    bits.flatMap fun b => if b = 1 then m.carrier_bpsk else m.carrier_bpsk.map Neg.neg
  | Scheme.FSK =>
    bits.flatMap fun b => if b = 1 then m.carrier_f1 else m.carrier_f2

/-- `Modem.modulate`: prepend the preamble, then generate the waveform. -/
def modulate (m : Modem) (bits : List ℕ) (scheme : Scheme) : Waveform :=
  generate_waveform m (preamble ++ bits) scheme

/-- `np.sum(a * b)` on equal-length arrays (and, like numpy broadcasting
never arises here, the zip truncates at the shorter list). -/
def dotProd (a b : Waveform) : ℚ := (List.zipWith (· * ·) a b).sum

/-- `np.correlate(signal, ref, mode='valid')`:
entry `k` is `Σ_j signal[k+j] * ref[j]`, for `k = 0 .. len(signal) - len(ref)`. -/
def correlate (signal ref : Waveform) : Waveform :=
  (List.range (signal.length + 1 - ref.length)).map fun k => dotProd (signal.drop k) ref

/-- Helper for `np.argmax(np.abs(corr))`: scan with the current best
index/value, replacing only on strictly larger magnitude (first-occurrence
tie-breaking, as in numpy). -/
def argmaxAbsAux : Waveform → ℕ → ℕ → ℚ → ℕ
  | [], _, bi, _ => bi
  | x :: xs, i, bi, bv =>
    if |bv| < |x| then argmaxAbsAux xs (i + 1) i x else argmaxAbsAux xs (i + 1) bi bv

/-- `np.argmax(np.abs(l))`: index of the first maximal magnitude. -/
def argmaxAbs (l : Waveform) : ℕ := argmaxAbsAux l 0 0 (l.headD 0)

/-- The scheme's reference preamble waveform
(`ref_preamble = self._generate_waveform(self.preamble, scheme)`). -/
def ref_preamble (m : Modem) (scheme : Scheme) : Waveform :=
  generate_waveform m preamble scheme

/-- The cross-correlation of the received signal with the reference
preamble (`corr = np.correlate(signal, ref_preamble, mode='valid')`). -/
def syncCorr (m : Modem) (signal : Waveform) (scheme : Scheme) : Waveform :=
  correlate signal (ref_preamble m scheme)

/-- `peak_idx = np.argmax(np.abs(corr))`. -/
def syncPeakIdx (m : Modem) (signal : Waveform) (scheme : Scheme) : ℕ :=
  argmaxAbs (syncCorr m signal scheme)

/-- `corr[peak_idx]`, the (signed) synchronization correlation peak. -/
def syncPeakVal (m : Modem) (signal : Waveform) (scheme : Scheme) : ℚ :=
  (syncCorr m signal scheme).getD (syncPeakIdx m signal scheme) 0

/-- The per-bit decision applied to one `samples_per_bit`-sample segment:
ASK integrates (`np.mean(segment) > 0`), BPSK correlates coherently with
the carrier, FSK compares noncoherent quadrature energies. -/
def decideBit (m : Modem) (segment : Waveform) : Scheme → ℕ
  | Scheme.ASK => if 0 < segment.sum / (segment.length : ℚ) then 1 else 0
  | Scheme.BPSK => if 0 < dotProd segment m.carrier_bpsk then 1 else 0
  | Scheme.FSK =>
    if (dotProd segment m.cos_f2) ^ 2 + (dotProd segment m.sin_f2) ^ 2
        < (dotProd segment m.cos_f1) ^ 2 + (dotProd segment m.sin_f1) ^ 2
    then 1 else 0

/-- The raw bit-decision loop of `Modem.demodulate`: skip to just after
the synchronized preamble, then decide `len(data_signal) // samples_per_bit`
bits segment by segment. -/
def rawDecodedBits (m : Modem) (signal : Waveform) (scheme : Scheme) : List ℕ :=
  let data_signal := signal.drop (syncPeakIdx m signal scheme + (ref_preamble m scheme).length)
  (List.range (data_signal.length / m.samples_per_bit)).map fun i =>
    decideBit m ((data_signal.drop (i * m.samples_per_bit)).take m.samples_per_bit) scheme

/-- `Modem.demodulate` of `simulation_core.py`: empty/short-signal guards,
cross-correlation synchronization with the `|corr[peak]| < 1.0` noise
threshold, the per-bit decision loop, and — for BPSK only — the global
polarity correction `decoded_bits = [1 - b for b in decoded_bits]`
applied when `corr[peak_idx] < 0`. -/
def demodulate (m : Modem) (signal : Waveform) (scheme : Scheme) : List ℕ :=
  if signal.isEmpty then []
  else if signal.length < (ref_preamble m scheme).length then []
  else if |syncPeakVal m signal scheme| < 1 then []
  else
    let raw := rawDecodedBits m signal scheme
    match scheme with
    | Scheme.BPSK => if syncPeakVal m signal scheme < 0 then raw.map (fun b => 1 - b) else raw
    | _ => raw

/-- One value of the `pending_acks` dictionary:
`{'packet': packet, 'sent_time': current_time}`. -/
structure PendingInfo where
  packet : Packet
  sent_time : ℚ

deriving DecidableEq, Repr

/-- The mutable state of a `Host`.  `pending_acks` is an insertion-ordered
association list, mirroring the Python `dict`; `received_seqs` is the
`set` of `(src, seq)` pairs (only membership matters).  The unused
`cable` and `server_files` fields are omitted. -/
structure HostState where
  address : ℕ
  mod_scheme : Scheme
  modem : Modem
  next_seq : ℕ
  received_seqs : List (ℕ × ℕ)
  pending_acks : List (ℕ × PendingInfo)
  timeout_interval : ℚ

deriving DecidableEq, Repr

/-- Python `dict` assignment `d[k] = v`: update in place if the key
exists (keeping its position), otherwise append. -/
def dictSet (d : List (ℕ × PendingInfo)) (k : ℕ) (v : PendingInfo) :
    List (ℕ × PendingInfo) :=
  if d.any (fun e => e.1 = k) then d.map (fun e => if e.1 = k then (k, v) else e)
  else d ++ [(k, v)]

/-- The guarded Python deletion `if k in d: del d[k]`. -/
def dictRemove (d : List (ℕ × PendingInfo)) (k : ℕ) : List (ℕ × PendingInfo) :=
  d.filter (fun e => e.1 ≠ k)

/-- `Host._transmit_packet`: serialize and modulate with the host's scheme. -/
def transmit_packet (s : HostState) (p : Packet) : Waveform :=
  modulate s.modem p.to_bits s.mod_scheme

/-- `Host.send`: build a DATA packet with `seq = next_seq`; if `reliable`,
record it in `pending_acks` and increment `next_seq`; return the modulated
signal and the packet together with the updated state. -/
def Host.send (s : HostState) (target_address : ℕ) (message : List ℕ)
    (current_time : ℚ) (reliable : Bool) : (Waveform × Packet) × HostState :=
  let packet : Packet := ⟨s.address, target_address, PType.DATA, s.next_seq, message⟩
  let s' :=
    if reliable then
      { s with pending_acks := dictSet s.pending_acks s.next_seq ⟨packet, current_time⟩,
               next_seq := s.next_seq + 1 }
    else s
  ((transmit_packet s packet, packet), s')

/-- The payload of every generated acknowledgment: the string `"ACK"`. -/
def ackPayload : List ℕ := [65, 67, 75]

/-- `Host.receive` of `simulation_core.py`: demodulate, parse, filter by
address, then either clear a pending entry (ACK) or deduplicate, deliver
and acknowledge (DATA).  Returns
`((response_signal, app_data, response_packet), new_state)`. -/
def Host.receive (s : HostState) (analog_signal : Waveform) (_current_time : ℚ) :
    (Option Waveform × Option (List ℕ) × Option Packet) × HostState :=
  let bits := demodulate s.modem analog_signal s.mod_scheme
  if bits = [] then ((none, none, none), s)
  else
    match Packet.from_bits bits with
    | none => ((none, none, none), s)
    | some packet =>
      if packet.dst = s.address then
        match packet.type with
        | PType.ACK =>
          ((none, none, none), { s with pending_acks := dictRemove s.pending_acks packet.seq })
        | PType.DATA =>
          let packet_id := (packet.src, packet.seq)
          let delivered :=
            if packet_id ∈ s.received_seqs then (none, s)
            else (some packet.payload, { s with received_seqs := packet_id :: s.received_seqs })
          let response_packet : Packet := ⟨s.address, packet.src, PType.ACK, packet.seq, ackPayload⟩
          ((some (transmit_packet delivered.2 response_packet), delivered.1,
            some response_packet), delivered.2)
      else ((none, none, none), s)

/-- `Host.check_timeouts`: every pending entry with
`current_time - sent_time > timeout_interval` has its timer reset to
`current_time` and the *same stored packet* re-serialized and collected
for retransmission; no entry is removed. -/
def Host.check_timeouts (s : HostState) (current_time : ℚ) :
    List (Waveform × Packet) × HostState :=
  let retransmit_data :=
    (s.pending_acks.filter
      (fun e => s.timeout_interval < current_time - e.2.sent_time)).map
      (fun e => (transmit_packet s e.2.packet, e.2.packet))
  (retransmit_data,
   { s with pending_acks := s.pending_acks.map fun e =>
      if s.timeout_interval < current_time - e.2.sent_time
      then (e.1, ⟨e.2.packet, current_time⟩) else e })

/-- The claims quantify over "well-formed" frames: all header fields in
`0..255`, each payload character code a byte.  The payload-length bound
`≤ 255` is the condition singled out by claim C1's counterexample. -/
def ValidFrame (p : Packet) : Prop :=
  p.src < 256 ∧ p.dst < 256 ∧ p.seq < 256 ∧
    (∀ c ∈ p.payload, c < 256) ∧ p.payload.length ≤ 255

instance (p : Packet) : Decidable (ValidFrame p) := by
  unfold ValidFrame
  infer_instance

/-- Flip the bit at `pos`: replace it by `1 - bit` (the `0 ↔ 1` involution
on genuine bits). -/
def flipBit (bits : List ℕ) (pos : ℕ) : List ℕ :=
  bits.set pos (1 - bits.getD pos 0)

/-- Iterated reliable sends (fixed `reliable=True`), one per element of
`args = [(target, message, time), ...]` — used to track `next_seq` over a
whole session. -/
def sendAll (s : HostState) : List (ℕ × List ℕ × ℚ) → HostState
  | [] => s
  | a :: rest => sendAll (Host.send s a.1 a.2.1 a.2.2 true).2 rest

/-- A concrete modem with one sample per bit (the `Modem` constructor
accepts any `samples_per_bit`); carrier samples are irrelevant for ASK. -/
def wModem : Modem := ⟨1, [1], [], [], [], [], [], []⟩

/-- A concrete fresh endpoint at address 2 using ASK. -/
def wHost : HostState := ⟨2, Scheme.ASK, wModem, 0, [], [], 3⟩

def wPkt0 : Packet := ⟨2, 1, PType.DATA, 0, [65]⟩

def wPkt1 : Packet := ⟨2, 1, PType.DATA, 1, [66]⟩

/-- An endpoint with one expired pending entry (sent at t=0) and one
fresh pending entry (sent at t=9), checked at t=10 with timeout 3. -/
def wTimeoutHost : HostState :=
  ⟨2, Scheme.ASK, wModem, 2, [], [(0, ⟨wPkt0, 0⟩), (1, ⟨wPkt1, 9⟩)], 3⟩

/-- A 48-bit frame whose TYPE byte holds 7 (neither 1 nor 2) and whose
additive checksum is correct. -/
def wType7Bits : List ℕ :=
  List.replicate 16 0 ++ [0, 0, 0, 0, 0, 1, 1, 1] ++ List.replicate 16 0
    ++ [0, 0, 0, 0, 0, 0, 1, 1]

theorem natBinAux_congr (n : ℕ) :
    ∀ fuel fuel', n ≤ fuel → n ≤ fuel' → natBinAux fuel n = natBinAux fuel' n := by
  induction n using Nat.strong_induction_on with
  | _ n ih =>
    intro fuel fuel' h h'
    cases n with
    | zero => cases fuel <;> cases fuel' <;> rfl
    | succ m =>
      obtain ⟨f, rfl⟩ : ∃ f, fuel = f + 1 := ⟨fuel - 1, by omega⟩
      obtain ⟨f', rfl⟩ : ∃ f', fuel' = f' + 1 := ⟨fuel' - 1, by omega⟩
      simp only [natBinAux]
      congr 1
      exact ih ((m + 1) / 2) (Nat.div_lt_self (Nat.succ_pos m) one_lt_two) f f'
        (by omega) (by omega)

theorem natBin_succ (n : ℕ) :
    natBin (n + 1) = natBin ((n + 1) / 2) ++ [(n + 1) % 2] := by
  show natBinAux (n + 1) (n + 1) = natBinAux ((n + 1) / 2) ((n + 1) / 2) ++ _
  simp only [natBinAux]
  congr 1
  exact natBinAux_congr ((n + 1) / 2) n ((n + 1) / 2) (by omega) le_rfl

theorem bitsToStrAux_congr (fuel fuel' : ℕ) (bits : List ℕ)
    (h : bits.length ≤ fuel) (h' : bits.length ≤ fuel') :
    bitsToStrAux fuel bits = bitsToStrAux fuel' bits := by
  induction fuel generalizing fuel' bits with
  | zero =>
    match fuel' with
    | 0 => rfl
    | fuel' + 1 =>
      have : bits.length = 0 := by omega
      simp [bitsToStrAux, this]
  | succ fuel ih =>
    match fuel' with
    | 0 =>
      have : bits.length = 0 := by omega
      simp [bitsToStrAux, this]
    | fuel' + 1 =>
      simp only [bitsToStrAux]
      by_cases h8 : 8 ≤ bits.length
      · simp only [h8, if_true]
        rw [ih fuel' (bits.drop 8) (by simp; omega) (by simp; omega)]
      · simp [h8]

theorem bits_to_str_eq (bits : List ℕ) :
    bits_to_str bits =
      if 8 ≤ bits.length then bitsToInt (bits.take 8) :: bits_to_str (bits.drop 8)
      else [] := by
  by_cases h8 : 8 ≤ bits.length
  · obtain ⟨n, hl⟩ : ∃ n, bits.length = n + 1 := ⟨bits.length - 1, by omega⟩
    show bitsToStrAux bits.length bits = _
    rw [hl]
    simp only [bitsToStrAux, h8, if_true]
    rw [bitsToStrAux_congr n (bits.drop 8).length (bits.drop 8)
      (by simp [hl]) le_rfl]
    rw [if_pos (hl ▸ h8)]
    rfl
  · show bitsToStrAux bits.length bits = _
    cases hl : bits.length with
    | zero => simp [bitsToStrAux, h8]
    | succ n =>
      simp [bitsToStrAux, h8]
      omega

/-! ## Arithmetic of the bit renderings -/

theorem bitsToInt_foldl_init (l : List ℕ) :
    ∀ a : ℕ, l.foldl (fun a b => 2 * a + b) a = a * 2 ^ l.length + bitsToInt l := by
  induction l with
  | nil => intro a; simp [bitsToInt]
  | cons x xs ih =>
    intro a
    show xs.foldl _ (2 * a + x) = _
    rw [ih (2 * a + x)]
    show _ = _ + xs.foldl _ (2 * 0 + x)
    rw [ih (2 * 0 + x)]
    ring_nf
    simp [List.length_cons, pow_succ]
    ring

theorem bitsToInt_append (a b : List ℕ) :
    bitsToInt (a ++ b) = bitsToInt a * 2 ^ b.length + bitsToInt b := by
  show (a ++ b).foldl _ 0 = _
  rw [List.foldl_append, bitsToInt_foldl_init b]
  rfl

theorem bitsToInt_replicate_zero (k : ℕ) : bitsToInt (List.replicate k 0) = 0 := by
  induction k with
  | zero => rfl
  | succ n ih =>
    show bitsToInt (List.replicate (n + 1) 0) = 0
    rw [List.replicate_succ']
    rw [bitsToInt_append, ih]
    simp [bitsToInt]

theorem bitsToInt_zfill (k : ℕ) (l : List ℕ) : bitsToInt (zfill k l) = bitsToInt l := by
  unfold zfill
  rw [bitsToInt_append, bitsToInt_replicate_zero]
  simp

theorem mem_natBin_le_one (n : ℕ) : ∀ x ∈ natBin n, x ≤ 1 := by
  induction n using Nat.strong_induction_on with
  | _ n ih =>
    cases n with
    | zero => intro x hx; simp [natBin, natBinAux] at hx
    | succ m =>
      rw [natBin_succ]
      intro x hx
      rcases List.mem_append.mp hx with h | h
      · exact ih ((m + 1) / 2) (Nat.div_lt_self (Nat.succ_pos m) one_lt_two) x h
      · simp at h
        omega

theorem bitsToInt_natBin (n : ℕ) : bitsToInt (natBin n) = n := by
  induction n using Nat.strong_induction_on with
  | _ n ih =>
    cases n with
    | zero => rfl
    | succ m =>
      rw [natBin_succ, bitsToInt_append]
      rw [ih ((m + 1) / 2) (Nat.div_lt_self (Nat.succ_pos m) one_lt_two)]
      show (m + 1) / 2 * 2 ^ 1 + bitsToInt [(m + 1) % 2] = m + 1
      have : bitsToInt [(m + 1) % 2] = (m + 1) % 2 := by simp [bitsToInt]
      rw [this]
      omega

theorem natBin_length_le (n k : ℕ) (h : n < 2 ^ k) : (natBin n).length ≤ k := by
  induction n using Nat.strong_induction_on generalizing k with
  | _ n ih =>
    cases n with
    | zero => simp [natBin, natBinAux]
    | succ m =>
      rw [natBin_succ]
      have hk : ∃ j, k = j + 1 := by
        refine ⟨k - 1, ?_⟩
        have : 1 ≤ k := by
          by_contra hc
          have hk0 : k = 0 := by omega
          rw [hk0] at h
          simp at h
        omega
      obtain ⟨j, rfl⟩ := hk
      have hd : (m + 1) / 2 < 2 ^ j := by
        have := Nat.pow_succ 2 j
        omega
      simp only [List.length_append, List.length_singleton]
      have := ih ((m + 1) / 2) (Nat.div_lt_self (Nat.succ_pos m) one_lt_two) j hd
      omega

theorem mem_natToBits8_le_one (n : ℕ) : ∀ x ∈ natToBits8 n, x ≤ 1 := by
  intro x hx
  unfold natToBits8 zfill at hx
  rcases List.mem_append.mp hx with h | h
  · simp at h
    omega
  · unfold pyBin at h
    by_cases h0 : n = 0
    · simp [h0] at h
      omega
    · simp [h0] at h
      exact mem_natBin_le_one n x h

theorem bitsToInt_natToBits8 (n : ℕ) : bitsToInt (natToBits8 n) = n := by
  unfold natToBits8
  rw [bitsToInt_zfill]
  unfold pyBin
  by_cases h0 : n = 0
  · simp [h0, bitsToInt]
  · simp [h0, bitsToInt_natBin]

theorem natToBits8_length (n : ℕ) (h : n < 256) : (natToBits8 n).length = 8 := by
  unfold natToBits8 zfill
  have : (pyBin n).length ≤ 8 := by
    unfold pyBin
    by_cases h0 : n = 0
    · simp [h0]
    · simp only [h0, if_false]
      exact natBin_length_le n 8 (by norm_num; omega)
  simp only [List.length_append, List.length_replicate]
  omega

theorem natToBits8_inj (a b : ℕ) (h : natToBits8 a = natToBits8 b) : a = b := by
  have := congrArg bitsToInt h
  rwa [bitsToInt_natToBits8, bitsToInt_natToBits8] at this

/-! ## Payload string codec -/

theorem str_to_bits_cons (c : ℕ) (cs : List ℕ) :
    str_to_bits (c :: cs) = natToBits8 c ++ str_to_bits cs := by
  simp [str_to_bits]

theorem str_to_bits_length (codes : List ℕ) (h : ∀ c ∈ codes, c < 256) :
    (str_to_bits codes).length = 8 * codes.length := by
  induction codes with
  | nil => rfl
  | cons c cs ih =>
    rw [str_to_bits_cons]
    simp only [List.length_append, List.length_cons]
    rw [natToBits8_length c (h c (by simp)), ih (fun x hx => h x (by simp [hx]))]
    ring

theorem mem_str_to_bits_le_one (codes : List ℕ) : ∀ x ∈ str_to_bits codes, x ≤ 1 := by
  intro x hx
  unfold str_to_bits at hx
  obtain ⟨c, _, hxc⟩ := List.mem_flatMap.mp hx
  exact mem_natToBits8_le_one c x hxc

theorem bits_to_str_str_to_bits (codes : List ℕ) (h : ∀ c ∈ codes, c < 256) :
    bits_to_str (str_to_bits codes) = codes := by
  induction codes with
  | nil => rfl
  | cons c cs ih =>
    have hc : c < 256 := h c (by simp)
    have hlen8 : (natToBits8 c).length = 8 := natToBits8_length c hc
    rw [str_to_bits_cons, bits_to_str_eq]
    rw [if_pos (by simp [hlen8])]
    rw [List.take_left' hlen8, List.drop_left' hlen8]
    rw [bitsToInt_natToBits8, ih (fun x hx => h x (by simp [hx]))]

/-! ## Structure of `Packet.to_bits` -/

theorem mem_to_bits_le_one (p : Packet) : ∀ x ∈ p.to_bits, x ≤ 1 := by
  intro x hx
  unfold Packet.to_bits headerBits calculate_crc at hx
  simp only [List.append_assoc, List.mem_append] at hx
  rcases hx with h | h | h | h | h | h | h
  · exact mem_natToBits8_le_one _ x h
  · exact mem_natToBits8_le_one _ x h
  · exact mem_natToBits8_le_one _ x h
  · exact mem_natToBits8_le_one _ x h
  · exact mem_natToBits8_le_one _ x h
  · exact mem_str_to_bits_le_one _ x h
  · exact mem_natToBits8_le_one _ x h

theorem to_bits_length (p : Packet) (h : ValidFrame p) :
    p.to_bits.length = 48 + 8 * p.payload.length := by
  obtain ⟨hsrc, hdst, hseq, hcodes, hlen⟩ := h
  have hP : (str_to_bits p.payload).length = 8 * p.payload.length :=
    str_to_bits_length p.payload hcodes
  have ht : (if p.type = PType.DATA then 1 else 2) < 256 := by split <;> norm_num
  unfold Packet.to_bits headerBits calculate_crc
  simp only [List.length_append]
  rw [natToBits8_length _ hsrc, natToBits8_length _ hdst, natToBits8_length _ ht,
    natToBits8_length _ (Nat.mod_lt _ (by norm_num)),
    natToBits8_length _ (by rw [hP]; omega),
    natToBits8_length _ (Nat.mod_lt _ (by norm_num)), hP]
  omega

/-! ## Parsing a well-formed serialized frame -/

theorem from_bits_of_blocks (F1 F2 F3 F4 F5 P C : List ℕ)
    (l1 : F1.length = 8) (l2 : F2.length = 8) (l3 : F3.length = 8)
    (l4 : F4.length = 8) (l5 : F5.length = 8) (lC : C.length = 8)
    (lP : P.length = bitsToInt F5 * 8)
    (hC : C = calculate_crc (F1 ++ (F2 ++ (F3 ++ (F4 ++ (F5 ++ P)))))) :
    Packet.from_bits (F1 ++ (F2 ++ (F3 ++ (F4 ++ (F5 ++ (P ++ C)))))) =
      some ⟨bitsToInt F1, bitsToInt F2,
            if bitsToInt F3 = 1 then PType.DATA else PType.ACK,
            bitsToInt F4, bits_to_str P⟩ := by
  set B := F1 ++ (F2 ++ (F3 ++ (F4 ++ (F5 ++ (P ++ C))))) with hB
  have hlen : B.length = 48 + bitsToInt F5 * 8 := by
    simp only [hB, List.length_append, l1, l2, l3, l4, l5, lC, lP]
    omega
  have t1 : B.take 8 = F1 := List.take_left' l1
  have t2 : (B.drop 8).take 8 = F2 := by
    rw [show B.drop 8 = F2 ++ (F3 ++ (F4 ++ (F5 ++ (P ++ C)))) from List.drop_left' l1]
    exact List.take_left' l2
  have t3 : (B.drop 16).take 8 = F3 := by
    have : B = (F1 ++ F2) ++ (F3 ++ (F4 ++ (F5 ++ (P ++ C)))) := by
      rw [hB]; simp [List.append_assoc]
    rw [this, List.drop_left' (by simp [l1, l2])]
    exact List.take_left' l3
  have t4 : (B.drop 24).take 8 = F4 := by
    have : B = (F1 ++ F2 ++ F3) ++ (F4 ++ (F5 ++ (P ++ C))) := by
      rw [hB]; simp [List.append_assoc]
    rw [this, List.drop_left' (by simp [l1, l2, l3])]
    exact List.take_left' l4
  have t5 : (B.drop 32).take 8 = F5 := by
    have : B = (F1 ++ F2 ++ F3 ++ F4) ++ (F5 ++ (P ++ C)) := by
      rw [hB]; simp [List.append_assoc]
    rw [this, List.drop_left' (by simp [l1, l2, l3, l4])]
    exact List.take_left' l5
  have hd40 : B.drop 40 = P ++ C := by
    have : B = (F1 ++ F2 ++ F3 ++ F4 ++ F5) ++ (P ++ C) := by
      rw [hB]; simp [List.append_assoc]
    rw [this, List.drop_left' (by simp [l1, l2, l3, l4, l5])]
  have tP : (B.drop 40).take (bitsToInt F5 * 8) = P := by
    rw [hd40]
    exact List.take_left' lP
  have tC : (B.drop (40 + bitsToInt F5 * 8)).take 8 = C := by
    have : B = (F1 ++ F2 ++ F3 ++ F4 ++ F5 ++ P) ++ C := by
      rw [hB]; simp [List.append_assoc]
    rw [this, List.drop_left' (by simp [l1, l2, l3, l4, l5, lP]; omega)]
    rw [← lC]
    simp
  have tD : B.take (40 + bitsToInt F5 * 8) = F1 ++ (F2 ++ (F3 ++ (F4 ++ (F5 ++ P)))) := by
    have : B = (F1 ++ (F2 ++ (F3 ++ (F4 ++ (F5 ++ P))))) ++ C := by
      rw [hB]; simp [List.append_assoc]
    rw [this]
    exact List.take_left' (by simp [l1, l2, l3, l4, l5, lP]; omega)
  show Packet.from_bits B = _
  unfold Packet.from_bits
  simp only [t1, t2, t3, t4, t5, tP, tC, tD]
  rw [if_neg (by omega), if_neg (by omega), if_neg (by rw [← hC]; simp)]

theorem from_to_bits (p : Packet) (h : ValidFrame p) :
    Packet.from_bits p.to_bits = some p := by
  obtain ⟨hsrc, hdst, hseq, hcodes, hlenp⟩ := h
  have hP : (str_to_bits p.payload).length = 8 * p.payload.length :=
    str_to_bits_length _ hcodes
  have ht : (if p.type = PType.DATA then 1 else 2) < 256 := by split <;> norm_num
  have hLv : bitsToInt (natToBits8 ((str_to_bits p.payload).length / 8))
      = p.payload.length := by
    rw [bitsToInt_natToBits8, hP]
    omega
  have hassoc : p.to_bits
      = natToBits8 p.src ++ (natToBits8 p.dst
        ++ (natToBits8 (if p.type = PType.DATA then 1 else 2)
        ++ (natToBits8 (p.seq % 256)
        ++ (natToBits8 ((str_to_bits p.payload).length / 8)
        ++ (str_to_bits p.payload
        ++ calculate_crc (headerBits p ++ str_to_bits p.payload)))))) := by
    unfold Packet.to_bits headerBits
    simp [List.append_assoc]
  rw [hassoc]
  rw [from_bits_of_blocks (natToBits8 p.src) (natToBits8 p.dst)
    (natToBits8 (if p.type = PType.DATA then 1 else 2)) (natToBits8 (p.seq % 256))
    (natToBits8 ((str_to_bits p.payload).length / 8)) (str_to_bits p.payload)
    (calculate_crc (headerBits p ++ str_to_bits p.payload))
    (natToBits8_length _ hsrc) (natToBits8_length _ hdst) (natToBits8_length _ ht)
    (natToBits8_length _ (Nat.mod_lt _ (by norm_num)))
    (natToBits8_length _ (by rw [hP]; omega))
    (natToBits8_length _ (Nat.mod_lt _ (by norm_num)))
    (by rw [hLv, hP]; ring)
    (by unfold headerBits; simp [List.append_assoc])]
  simp only [bitsToInt_natToBits8, Nat.mod_eq_of_lt hseq,
    bits_to_str_str_to_bits p.payload hcodes]
  obtain ⟨a, b, ty, sq, pl⟩ := p
  cases ty <;> rfl

/-! ## Failure characterization of `Packet.from_bits` -/

theorem from_bits_eq_none_iff (bits : List ℕ) :
    Packet.from_bits bits = none ↔
      bits.length < 48
      ∨ bits.length < 40 + bitsToInt ((bits.drop 32).take 8) * 8 + 8
      ∨ (bits.drop (40 + bitsToInt ((bits.drop 32).take 8) * 8)).take 8
          ≠ natToBits8 ((bits.take (40 + bitsToInt ((bits.drop 32).take 8) * 8)).sum % 256) := by
  by_cases h1 : bits.length < 48
  · unfold Packet.from_bits
    rw [if_pos h1]
    simp [h1]
  · by_cases h2 : bits.length < 40 + bitsToInt ((bits.drop 32).take 8) * 8 + 8
    · unfold Packet.from_bits
      rw [if_neg h1, if_pos h2]
      simp [h2]
    · by_cases h3 : (bits.drop (40 + bitsToInt ((bits.drop 32).take 8) * 8)).take 8
          = calculate_crc (bits.take (40 + bitsToInt ((bits.drop 32).take 8) * 8))
      · unfold Packet.from_bits
        rw [if_neg h1, if_neg h2, if_neg (by simp [h3])]
        simp only [calculate_crc] at h3
        simp [h1, h2, h3]
      · unfold Packet.from_bits
        rw [if_neg h1, if_neg h2, if_pos (by simp [h3])]
        simp only [calculate_crc] at h3
        simp [h3]

theorem from_bits_eq_some_fields (bits : List ℕ)
    (h1 : ¬ bits.length < 48)
    (h2 : ¬ bits.length < 40 + bitsToInt ((bits.drop 32).take 8) * 8 + 8)
    (h3 : (bits.drop (40 + bitsToInt ((bits.drop 32).take 8) * 8)).take 8
      = calculate_crc (bits.take (40 + bitsToInt ((bits.drop 32).take 8) * 8))) :
    Packet.from_bits bits =
      some ⟨bitsToInt (bits.take 8), bitsToInt ((bits.drop 8).take 8),
            if bitsToInt ((bits.drop 16).take 8) = 1 then PType.DATA else PType.ACK,
            bitsToInt ((bits.drop 24).take 8),
            bits_to_str ((bits.drop 40).take (bitsToInt ((bits.drop 32).take 8) * 8))⟩ := by
  unfold Packet.from_bits
  rw [if_neg h1, if_neg h2, if_neg (by simp [h3])]

/-! ## Single-bit corruption -/

theorem set_getElem_self (l : List ℕ) (n : ℕ) (h : n < l.length) : l.set n l[n] = l := by
  apply List.ext_getElem
  · simp
  · intro i h1 h2
    by_cases hi : i = n
    · subst hi; simp [List.getElem_set]
    · simp only [List.getElem_set]
      rw [if_neg (fun hni => hi hni.symm)]

theorem sum_set_add (l : List ℕ) (n : ℕ) (v : ℕ) (h : n < l.length) :
    (l.set n v).sum + l[n] = l.sum + v := by
  rw [List.set_eq_take_cons_drop v h]
  conv_rhs => rw [← set_getElem_self l n h, List.set_eq_take_cons_drop _ h]
  simp only [List.sum_append, List.sum_cons]
  ring

theorem headerBits_length (p : Packet) (h : ValidFrame p) : (headerBits p).length = 40 := by
  obtain ⟨hsrc, hdst, hseq, hcodes, hlenp⟩ := h
  have hP : (str_to_bits p.payload).length = 8 * p.payload.length :=
    str_to_bits_length _ hcodes
  have ht : (if p.type = PType.DATA then 1 else 2) < 256 := by split <;> norm_num
  unfold headerBits
  simp only [List.length_append]
  rw [natToBits8_length _ hsrc, natToBits8_length _ hdst, natToBits8_length _ ht,
    natToBits8_length _ (Nat.mod_lt _ (by norm_num)),
    natToBits8_length _ (by rw [hP]; omega)]

/-- Flipping a single bit of a well-formed serialized frame anywhere in the
SRC/DST/TYPE/SEQ fields or in the payload (i.e. anywhere before the
trailing checksum except inside the LEN byte, bit positions 32–39) makes
`from_bits` reject the frame: the length checks still pass and the stored
checksum no longer matches the recomputed additive checksum. -/
theorem flip_to_bits_parse_none (p : Packet) (h : ValidFrame p) (pos : ℕ)
    (hpos : pos < 32 ∨ (40 ≤ pos ∧ pos < 40 + 8 * p.payload.length)) :
    Packet.from_bits (flipBit p.to_bits pos) = none := by
  obtain ⟨hsrc, hdst, hseq, hcodes, hlenp⟩ := h
  have hP : (str_to_bits p.payload).length = 8 * p.payload.length :=
    str_to_bits_length _ hcodes
  have hH : (headerBits p).length = 40 :=
    headerBits_length p ⟨hsrc, hdst, hseq, hcodes, hlenp⟩
  have hLv : bitsToInt (natToBits8 ((str_to_bits p.payload).length / 8))
      = p.payload.length := by
    rw [bitsToInt_natToBits8, hP]; omega
  have h5len : (natToBits8 ((str_to_bits p.payload).length / 8)).length = 8 :=
    natToBits8_length _ (by rw [hP]; omega)
  have hH4 : headerBits p
      = (natToBits8 p.src ++ natToBits8 p.dst
          ++ natToBits8 (if p.type = PType.DATA then 1 else 2)
          ++ natToBits8 (p.seq % 256))
        ++ natToBits8 ((str_to_bits p.payload).length / 8) := rfl
  have hH4len : (natToBits8 p.src ++ natToBits8 p.dst
      ++ natToBits8 (if p.type = PType.DATA then 1 else 2)
      ++ natToBits8 (p.seq % 256)).length = 32 := by
    have h40 := hH
    rw [hH4] at h40
    simp only [List.length_append] at h40 ⊢
    omega
  set D : List ℕ := headerBits p ++ str_to_bits p.payload with hDdef
  set C : List ℕ := calculate_crc D with hCdef
  have hClen : C.length = 8 := natToBits8_length _ (Nat.mod_lt _ (by norm_num))
  have hDlen : D.length = 40 + 8 * p.payload.length := by
    rw [hDdef]; simp only [List.length_append]; rw [hH, hP]
  have hbits : p.to_bits = D ++ C := by
    rw [hDdef, hCdef]; unfold Packet.to_bits; simp [List.append_assoc]
  have hposD : pos < D.length := by rw [hDlen]; omega
  -- The LEN byte (positions 32..40) is untouched by the flip, whatever the
  -- new value `v` written at `pos` is.
  have hLEN : ∀ v : ℕ, ((D.set pos v ++ C).drop 32).take 8
      = natToBits8 ((str_to_bits p.payload).length / 8) := by
    intro v
    rw [hDdef]
    rcases hpos with hlt | ⟨hge, _⟩
    · rw [List.set_append_left _ _ (by rw [hH]; omega)]
      rw [hH4, List.set_append_left _ _ (by rw [hH4len]; omega)]
      rw [List.append_assoc, List.append_assoc]
      rw [List.drop_left' (by rw [List.length_set]; exact hH4len)]
      exact List.take_left' h5len
    · rw [List.set_append_right _ _ (by rw [hH]; omega)]
      rw [hH4]
      rw [List.append_assoc, List.append_assoc]
      rw [List.drop_left' hH4len]
      exact List.take_left' h5len
  have hgetD : (D ++ C).getD pos 0 = D[pos] := by
    rw [List.getD_append _ _ _ _ hposD]
    exact List.getD_eq_getElem D 0 hposD
  have hflip : flipBit p.to_bits pos = D.set pos (1 - D[pos]) ++ C := by
    rw [hbits]; unfold flipBit; rw [hgetD]
    exact List.set_append_left pos (1 - D[pos]) hposD
  -- Checksum mismatch after the flip.
  have hmemD : ∀ x ∈ D, x ≤ 1 := by
    intro x hx
    exact mem_to_bits_le_one p x (by rw [hbits]; exact List.mem_append_left _ hx)
  have hsum : D.sum % 256 ≠ (D.set pos (1 - D[pos])).sum % 256 := by
    have hb : D[pos] = 0 ∨ D[pos] = 1 := by
      have := hmemD D[pos] (List.getElem_mem hposD)
      omega
    have hadd : (D.set pos (1 - D[pos])).sum + D[pos] = D.sum + (1 - D[pos]) :=
      sum_set_add D pos (1 - D[pos]) hposD
    generalize hS : (D.set pos (1 - D[pos])).sum = S at hadd ⊢
    rcases hb with hb | hb <;> rw [hb] at hadd <;> omega
  rw [hflip, from_bits_eq_none_iff]
  right; right
  rw [hLEN (1 - D[pos]), hLv]
  rw [List.drop_left' (show (D.set pos (1 - D[pos])).length = 40 + p.payload.length * 8
    by rw [List.length_set, hDlen]; ring)]
  rw [List.take_left' (show (D.set pos (1 - D[pos])).length = 40 + p.payload.length * 8
    by rw [List.length_set, hDlen]; ring)]
  rw [show C.take 8 = C by rw [← hClen]; simp]
  rw [hCdef]
  unfold calculate_crc
  intro hcontra
  exact hsum (natToBits8_inj _ _ hcontra)

/-! ## ASK modulation/demodulation over a noiseless channel -/

theorem generate_ask_def (m : Modem) (l : List ℕ) :
    generate_waveform m l Scheme.ASK
      = l.flatMap fun b =>
          List.replicate m.samples_per_bit (if b = 1 then (1 : ℚ) else -1) := rfl

theorem generate_ask_append (m : Modem) (a b : List ℕ) :
    generate_waveform m (a ++ b) Scheme.ASK
      = generate_waveform m a Scheme.ASK ++ generate_waveform m b Scheme.ASK := by
  simp only [generate_ask_def]
  exact List.flatMap_append a b _

theorem generate_ask_length (m : Modem) (l : List ℕ) :
    (generate_waveform m l Scheme.ASK).length = l.length * m.samples_per_bit := by
  induction l with
  | nil => simp [generate_ask_def]
  | cons b bs ih =>
    simp only [generate_ask_def, List.flatMap_cons, List.length_append,
      List.length_replicate, List.length_cons] at ih ⊢
    rw [ih]
    ring

theorem mem_generate_ask (m : Modem) (l : List ℕ) :
    ∀ x ∈ generate_waveform m l Scheme.ASK, x = 1 ∨ x = -1 := by
  intro x hx
  rw [generate_ask_def] at hx
  obtain ⟨b, _, hxb⟩ := List.mem_flatMap.mp hx
  have := List.eq_of_mem_replicate hxb
  split at this
  · left; exact this
  · right; exact this

theorem dotProd_append_left (b c : Waveform) : dotProd (b ++ c) b = dotProd b b := by
  induction b with
  | nil => simp [dotProd]
  | cons x xs ih =>
    show dotProd (x :: (xs ++ c)) (x :: xs) = _
    unfold dotProd at ih ⊢
    simp only [List.zipWith_cons_cons, List.sum_cons]
    rw [ih]

theorem dotProd_self_pm (l : Waveform) (h : ∀ x ∈ l, x = 1 ∨ x = -1) :
    dotProd l l = (l.length : ℚ) := by
  induction l with
  | nil => simp [dotProd]
  | cons x xs ih =>
    unfold dotProd at ih ⊢
    simp only [List.zipWith_cons_cons, List.sum_cons, List.length_cons]
    rw [ih (fun y hy => h y (by simp [hy]))]
    rcases h x (by simp) with hx | hx <;> rw [hx] <;> push_cast <;> ring

theorem dotProd_abs_le (a b : Waveform) (ha : ∀ x ∈ a, x = 1 ∨ x = -1)
    (hb : ∀ x ∈ b, x = 1 ∨ x = -1) : |dotProd a b| ≤ (b.length : ℚ) := by
  induction a generalizing b with
  | nil =>
    unfold dotProd
    simp
  | cons x xs ih =>
    cases b with
    | nil =>
      unfold dotProd
      simp
    | cons y ys =>
      unfold dotProd at ih ⊢
      simp only [List.zipWith_cons_cons, List.sum_cons, List.length_cons]
      have h1 : |x * y| = 1 := by
        rcases ha x (by simp) with hx | hx <;> rcases hb y (by simp) with hy | hy <;>
          rw [hx, hy] <;> norm_num
      calc |x * y + (List.zipWith (· * ·) xs ys).sum|
          ≤ |x * y| + |(List.zipWith (· * ·) xs ys).sum| := abs_add _ _
        _ ≤ 1 + (ys.length : ℚ) := by
            rw [h1]
            have := ih ys (fun z hz => ha z (by simp [hz])) (fun z hz => hb z (by simp [hz]))
            linarith
        _ = ((ys.length + 1 : ℕ) : ℚ) := by push_cast; ring

theorem argmaxAbsAux_of_no_gt (l : Waveform) :
    ∀ (i bi : ℕ) (bv : ℚ), (∀ x ∈ l, ¬ |bv| < |x|) → argmaxAbsAux l i bi bv = bi := by
  induction l with
  | nil => intro i bi bv _; rfl
  | cons x xs ih =>
    intro i bi bv h
    show (if |bv| < |x| then argmaxAbsAux xs (i + 1) i x else argmaxAbsAux xs (i + 1) bi bv) = bi
    rw [if_neg (h x (by simp))]
    exact ih (i + 1) bi bv (fun y hy => h y (by simp [hy]))

theorem argmaxAbs_eq_zero (l : Waveform) (h : ∀ x ∈ l, |x| ≤ |l.headD 0|) :
    argmaxAbs l = 0 := by
  unfold argmaxAbs
  exact argmaxAbsAux_of_no_gt l 0 0 (l.headD 0) (fun x hx => not_lt.mpr (h x hx))

theorem generate_ask_drop (m : Modem) (i : ℕ) :
    ∀ l : List ℕ, (generate_waveform m l Scheme.ASK).drop (i * m.samples_per_bit)
      = generate_waveform m (l.drop i) Scheme.ASK := by
  induction i with
  | zero => intro l; simp
  | succ i ih =>
    intro l
    cases l with
    | nil => simp [generate_ask_def]
    | cons b bs =>
      show (generate_waveform m (b :: bs) Scheme.ASK).drop ((i + 1) * m.samples_per_bit)
        = generate_waveform m (bs.drop i) Scheme.ASK
      have hgen : generate_waveform m (b :: bs) Scheme.ASK
          = List.replicate m.samples_per_bit (if b = 1 then (1 : ℚ) else -1)
            ++ generate_waveform m bs Scheme.ASK := by
        simp only [generate_ask_def, List.flatMap_cons]
      rw [hgen, show (i + 1) * m.samples_per_bit
        = m.samples_per_bit + i * m.samples_per_bit by ring]
      rw [← List.drop_drop, List.drop_left' (List.length_replicate _ _)]
      exact ih bs

theorem decideBit_ask_replicate (m : Modem) (v : ℚ) (hspb : 0 < m.samples_per_bit) :
    decideBit m (List.replicate m.samples_per_bit v) Scheme.ASK
      = if 0 < v then 1 else 0 := by
  unfold decideBit
  have hsum : (List.replicate m.samples_per_bit v).sum = (m.samples_per_bit : ℚ) * v := by
    rw [List.sum_replicate, nsmul_eq_mul]
  have hlen : ((List.replicate m.samples_per_bit v).length : ℚ) = (m.samples_per_bit : ℚ) := by
    rw [List.length_replicate]
  rw [hsum, hlen, mul_div_cancel_left₀ v (by positivity)]

theorem correlate_length (signal ref : Waveform) :
    (correlate signal ref).length = signal.length + 1 - ref.length := by
  simp [correlate]

theorem preamble_length : preamble.length = 8 := rfl

/-- Over a noiseless channel, ASK demodulation of an ASK-modulated bit
sequence recovers the bits exactly: the correlation peak sits at offset 0
with value `8 * samples_per_bit` (every sample is `±1`), the threshold
check passes, and each bit segment integrates to its transmitted level. -/
theorem demodulate_modulate_ask (m : Modem) (bits : List ℕ)
    (hspb : 0 < m.samples_per_bit) (hb : ∀ b ∈ bits, b ≤ 1) :
    demodulate m (modulate m bits Scheme.ASK) Scheme.ASK = bits := by
  have hRlen : (ref_preamble m Scheme.ASK).length = 8 * m.samples_per_bit := by
    unfold ref_preamble
    rw [generate_ask_length, preamble_length]
  have hGlen : (generate_waveform m bits Scheme.ASK).length
      = bits.length * m.samples_per_bit := generate_ask_length m bits
  have hsig : modulate m bits Scheme.ASK
      = ref_preamble m Scheme.ASK ++ generate_waveform m bits Scheme.ASK := by
    unfold modulate ref_preamble
    exact generate_ask_append m preamble bits
  have hSlen : (modulate m bits Scheme.ASK).length
      = 8 * m.samples_per_bit + bits.length * m.samples_per_bit := by
    rw [hsig, List.length_append, hRlen, hGlen]
  have hRmem : ∀ x ∈ ref_preamble m Scheme.ASK, x = 1 ∨ x = -1 :=
    mem_generate_ask m preamble
  have hSmem : ∀ x ∈ modulate m bits Scheme.ASK, x = 1 ∨ x = -1 :=
    mem_generate_ask m (preamble ++ bits)
  have hcorr : syncCorr m (modulate m bits Scheme.ASK) Scheme.ASK
      = correlate (modulate m bits Scheme.ASK) (ref_preamble m Scheme.ASK) := rfl
  have hclen : (correlate (modulate m bits Scheme.ASK) (ref_preamble m Scheme.ASK)).length
      = bits.length * m.samples_per_bit + 1 := by
    rw [correlate_length, hSlen, hRlen]
    omega
  have hc0pos :
      0 < (correlate (modulate m bits Scheme.ASK) (ref_preamble m Scheme.ASK)).length := by
    rw [hclen]
    omega
  have hdotSR : dotProd (modulate m bits Scheme.ASK) (ref_preamble m Scheme.ASK)
      = ((ref_preamble m Scheme.ASK).length : ℚ) := by
    rw [hsig, dotProd_append_left]
    exact dotProd_self_pm _ hRmem
  have h0 : (correlate (modulate m bits Scheme.ASK) (ref_preamble m Scheme.ASK)).getD 0 0
      = ((ref_preamble m Scheme.ASK).length : ℚ) := by
    rw [List.getD_eq_getElem _ _ hc0pos]
    unfold correlate
    rw [List.getElem_map, List.getElem_range, List.drop_zero, hdotSR]
  have hbound : ∀ x ∈ correlate (modulate m bits Scheme.ASK) (ref_preamble m Scheme.ASK),
      |x| ≤ (((ref_preamble m Scheme.ASK)).length : ℚ) := by
    intro x hx
    unfold correlate at hx
    obtain ⟨k, _, hk⟩ := List.mem_map.mp hx
    rw [← hk]
    exact dotProd_abs_le _ _ (fun z hz => hSmem z (List.mem_of_mem_drop hz)) hRmem
  obtain ⟨c0, cr, hcons⟩ : ∃ c0 cr,
      correlate (modulate m bits Scheme.ASK) (ref_preamble m Scheme.ASK) = c0 :: cr := by
    cases hsc : correlate (modulate m bits Scheme.ASK) (ref_preamble m Scheme.ASK) with
    | nil => rw [hsc] at hc0pos; simp at hc0pos
    | cons a l => exact ⟨a, l, rfl⟩
  have hc0 : c0 = ((ref_preamble m Scheme.ASK).length : ℚ) := by
    have h0' := h0
    rw [hcons] at h0'
    simpa using h0'
  have hidx : syncPeakIdx m (modulate m bits Scheme.ASK) Scheme.ASK = 0 := by
    unfold syncPeakIdx
    rw [hcorr]
    apply argmaxAbs_eq_zero
    intro x hx
    rw [hcons]
    show |x| ≤ |(c0 :: cr).headD 0|
    have : (c0 :: cr).headD 0 = c0 := rfl
    rw [this, hc0]
    exact le_trans (hbound x hx) (le_abs_self _)
  have hpeak : syncPeakVal m (modulate m bits Scheme.ASK) Scheme.ASK
      = ((ref_preamble m Scheme.ASK).length : ℚ) := by
    unfold syncPeakVal
    rw [hidx, hcorr]
    exact h0
  have hg1 : (modulate m bits Scheme.ASK).isEmpty = false := by
    apply List.isEmpty_eq_false.mpr
    intro hnil
    rw [hnil] at hSlen
    simp at hSlen
    omega
  have hg2 : ¬ (modulate m bits Scheme.ASK).length < (ref_preamble m Scheme.ASK).length := by
    rw [hSlen, hRlen]
    omega
  have hg3 : ¬ |syncPeakVal m (modulate m bits Scheme.ASK) Scheme.ASK| < 1 := by
    rw [hpeak, abs_of_nonneg (Nat.cast_nonneg _), not_lt]
    have h1 : (1 : ℕ) ≤ (ref_preamble m Scheme.ASK).length := by
      rw [hRlen]
      omega
    exact_mod_cast h1
  have hraw : rawDecodedBits m (modulate m bits Scheme.ASK) Scheme.ASK = bits := by
    simp only [rawDecodedBits]
    rw [hidx, zero_add]
    have hdropR : (modulate m bits Scheme.ASK).drop (ref_preamble m Scheme.ASK).length
        = generate_waveform m bits Scheme.ASK := by
      rw [hsig]
      exact List.drop_left' rfl
    rw [hdropR]
    have hnum : (generate_waveform m bits Scheme.ASK).length / m.samples_per_bit
        = bits.length := by
      rw [hGlen]
      exact Nat.mul_div_left bits.length hspb
    rw [hnum]
    apply List.ext_getElem
    · simp
    · intro i h1 h2
      rw [List.getElem_map, List.getElem_range]
      rw [generate_ask_drop m i bits]
      have hdropi : bits.drop i = bits[i] :: bits.drop (i + 1) :=
        (List.get_drop_eq_drop bits i h2).symm
      rw [hdropi]
      have hgen : generate_waveform m (bits[i] :: bits.drop (i + 1)) Scheme.ASK
          = List.replicate m.samples_per_bit (if bits[i] = 1 then (1 : ℚ) else -1)
            ++ generate_waveform m (bits.drop (i + 1)) Scheme.ASK := by
        simp only [generate_ask_def, List.flatMap_cons]
      rw [hgen, List.take_left' (List.length_replicate _ _)]
      rw [decideBit_ask_replicate m _ hspb]
      have hbi : bits[i] = 0 ∨ bits[i] = 1 := by
        have := hb bits[i] (List.getElem_mem h2)
        omega
      rcases hbi with hbi | hbi <;> rw [hbi] <;> norm_num
  unfold demodulate
  rw [hg1]
  rw [if_neg (by simp), if_neg hg2, if_neg hg3]
  exact hraw

/-! ## Behavior of `Host.receive` on well-formed frames -/

theorem to_bits_ne_nil (f : Packet) (hf : ValidFrame f) : f.to_bits ≠ [] := by
  intro h
  have hl := to_bits_length f hf
  rw [h] at hl
  simp at hl
  omega

theorem transmit_packet_received_seqs (s : HostState) (rs : List (ℕ × ℕ)) (q : Packet) :
    transmit_packet { s with received_seqs := rs } q = transmit_packet s q := rfl

/-- `Host.receive` on the modulated waveform of a well-formed DATA frame
addressed to this host: demodulation and parsing recover the frame, the
`(src, seq)` pair is checked against `received_seqs`, the payload is
surfaced only when unseen, and in both cases an ACK packet carrying the
same `seq` is built and modulated as the response. -/
theorem receive_data_general (s : HostState) (f : Packet) (t : ℚ)
    (hs : s.mod_scheme = Scheme.ASK) (hspb : 0 < s.modem.samples_per_bit)
    (hf : ValidFrame f) (hty : f.type = PType.DATA) (hdst : f.dst = s.address) :
    Host.receive s (modulate s.modem f.to_bits s.mod_scheme) t
      = if (f.src, f.seq) ∈ s.received_seqs
        then ((some (transmit_packet s ⟨s.address, f.src, PType.ACK, f.seq, ackPayload⟩),
               none,
               some ⟨s.address, f.src, PType.ACK, f.seq, ackPayload⟩), s)
        else ((some (transmit_packet s ⟨s.address, f.src, PType.ACK, f.seq, ackPayload⟩),
               some f.payload,
               some ⟨s.address, f.src, PType.ACK, f.seq, ackPayload⟩),
              { s with received_seqs := (f.src, f.seq) :: s.received_seqs }) := by
  have hd : demodulate s.modem (modulate s.modem f.to_bits s.mod_scheme) s.mod_scheme
      = f.to_bits := by
    rw [hs]
    exact demodulate_modulate_ask s.modem f.to_bits hspb (mem_to_bits_le_one f)
  unfold Host.receive
  rw [hd]
  rw [if_neg (to_bits_ne_nil f hf)]
  rw [from_to_bits f hf]
  dsimp only
  rw [if_pos hdst, hty]
  by_cases hseen : (f.src, f.seq) ∈ s.received_seqs
  · rw [if_pos hseen, if_pos hseen]
  · rw [if_neg hseen, if_neg hseen]
    rfl

/-- `Host.receive` on the modulated waveform of a well-formed ACK frame
addressed to this host: no response, no delivery, only the matching
pending entry (if any) is removed. -/
theorem receive_ack_general (s : HostState) (f : Packet) (t : ℚ)
    (hs : s.mod_scheme = Scheme.ASK) (hspb : 0 < s.modem.samples_per_bit)
    (hf : ValidFrame f) (hty : f.type = PType.ACK) (hdst : f.dst = s.address) :
    Host.receive s (modulate s.modem f.to_bits s.mod_scheme) t
      = ((none, none, none),
         { s with pending_acks := dictRemove s.pending_acks f.seq }) := by
  have hd : demodulate s.modem (modulate s.modem f.to_bits s.mod_scheme) s.mod_scheme
      = f.to_bits := by
    rw [hs]
    exact demodulate_modulate_ask s.modem f.to_bits hspb (mem_to_bits_le_one f)
  unfold Host.receive
  rw [hd]
  rw [if_neg (to_bits_ne_nil f hf)]
  rw [from_to_bits f hf]
  dsimp only
  rw [if_pos hdst, hty]

/-- `Host.receive` on the modulated waveform of a well-formed frame whose
destination is another address: nothing is returned and the state is
completely unchanged. -/
theorem receive_wrong_dst (s : HostState) (f : Packet) (t : ℚ)
    (hs : s.mod_scheme = Scheme.ASK) (hspb : 0 < s.modem.samples_per_bit)
    (hf : ValidFrame f) (hdst : f.dst ≠ s.address) :
    Host.receive s (modulate s.modem f.to_bits s.mod_scheme) t
      = ((none, none, none), s) := by
  have hd : demodulate s.modem (modulate s.modem f.to_bits s.mod_scheme) s.mod_scheme
      = f.to_bits := by
    rw [hs]
    exact demodulate_modulate_ask s.modem f.to_bits hspb (mem_to_bits_le_one f)
  unfold Host.receive
  rw [hd]
  rw [if_neg (to_bits_ne_nil f hf)]
  rw [from_to_bits f hf]
  dsimp only
  rw [if_neg hdst]

/-- A response waveform comes out of `Host.receive` only when the
demodulated-and-parsed frame is a DATA frame addressed to this host. -/
theorem receive_response_only_data (s : HostState) (sig : Waveform) (t : ℚ)
    (w : Waveform) (h : (Host.receive s sig t).1.1 = some w) :
    ∃ q : Packet,
      Packet.from_bits (demodulate s.modem sig s.mod_scheme) = some q
        ∧ q.type = PType.DATA ∧ q.dst = s.address := by
  unfold Host.receive at h
  by_cases hnil : demodulate s.modem sig s.mod_scheme = []
  · rw [if_pos hnil] at h
    simp at h
  · rw [if_neg hnil] at h
    cases hq : Packet.from_bits (demodulate s.modem sig s.mod_scheme) with
    | none => rw [hq] at h; simp at h
    | some q =>
      rw [hq] at h
      dsimp only at h
      refine ⟨q, rfl, ?_⟩
      by_cases hdst : q.dst = s.address
      · rw [if_pos hdst] at h
        cases hqt : q.type
        · exact ⟨rfl, hdst⟩
        · exfalso
          rw [hqt] at h
          simp at h
      · rw [if_neg hdst] at h
        simp at h

/-! ## Sequence-counter behavior of `Host.send` -/

theorem send_reliable_state (s : HostState) (tgt : ℕ) (msg : List ℕ) (now : ℚ) :
    (Host.send s tgt msg now true).2
      = { s with pending_acks := dictSet s.pending_acks s.next_seq
                   ⟨⟨s.address, tgt, PType.DATA, s.next_seq, msg⟩, now⟩,
                 next_seq := s.next_seq + 1 } := rfl

theorem sendAll_next_seq (s : HostState) (args : List (ℕ × List ℕ × ℚ)) :
    (sendAll s args).next_seq = s.next_seq + args.length := by
  induction args generalizing s with
  | nil => rfl
  | cons a rest ih =>
    show (sendAll (Host.send s a.1 a.2.1 a.2.2 true).2 rest).next_seq = _
    rw [ih, send_reliable_state]
    show s.next_seq + 1 + rest.length = s.next_seq + (rest.length + 1)
    omega

theorem str_to_bits_replicate_zero (n : ℕ) :
    str_to_bits (List.replicate n 0) = List.replicate (8 * n) 0 := by
  induction n with
  | zero => rfl
  | succ k ih =>
    rw [List.replicate_succ, str_to_bits_cons, ih]
    rw [show natToBits8 0 = List.replicate 8 0 from by decide]
    rw [show 8 * (k + 1) = 8 + 8 * k by ring, List.replicate_add]

/-! ## Claims -/

set_option maxRecDepth 8192 in
/-- Claim C1, counterexample: the round-trip property as stated fails for
a payload of 256 bytes (every header field in range, every character code
in `0..255`): `bin(len)` then produces a 9-bit LEN field that `zfill(8)`
does not truncate, the frame layout shifts by one bit, the re-read LEN
byte declares 128 bytes, and the recomputed checksum (2) disagrees with
the zero payload bits re-read as the checksum — `from_bits` returns no
frame at all. -/
theorem claim_C1_counterexample :
    Packet.from_bits (Packet.to_bits ⟨0, 0, PType.DATA, 0, List.replicate 256 0⟩)
      = none := by
  have hP : str_to_bits (List.replicate 256 0) = List.replicate 2048 0 := by
    rw [show (2048 : ℕ) = 8 * 256 from rfl]
    exact str_to_bits_replicate_zero 256
  have hhdr : headerBits ⟨0, 0, PType.DATA, 0, List.replicate 256 0⟩
      = (natToBits8 0 ++ natToBits8 0 ++ natToBits8 1 ++ natToBits8 0) ++ natToBits8 256 := by
    unfold headerBits
    rw [hP]
    norm_num
  have hbits : Packet.to_bits ⟨0, 0, PType.DATA, 0, List.replicate 256 0⟩
      = ((natToBits8 0 ++ natToBits8 0 ++ natToBits8 1 ++ natToBits8 0) ++ natToBits8 256)
        ++ List.replicate 2048 0
        ++ calculate_crc (headerBits ⟨0, 0, PType.DATA, 0, List.replicate 256 0⟩
            ++ str_to_bits (List.replicate 256 0)) := by
    unfold Packet.to_bits
    rw [hP, hhdr]
  rw [hbits, from_bits_eq_none_iff]
  set C : List ℕ := calculate_crc (headerBits ⟨0, 0, PType.DATA, 0, List.replicate 256 0⟩
      ++ str_to_bits (List.replicate 256 0)) with hC
  set B : List ℕ := ((natToBits8 0 ++ natToBits8 0 ++ natToBits8 1 ++ natToBits8 0)
      ++ natToBits8 256) ++ List.replicate 2048 0 ++ C with hB
  have hsplit : B = (natToBits8 0 ++ natToBits8 0 ++ natToBits8 1 ++ natToBits8 0)
      ++ (natToBits8 256 ++ (List.replicate 2048 0 ++ C)) := by
    rw [hB]
    simp [List.append_assoc]
  have hL : bitsToInt ((B.drop 32).take 8) = 128 := by
    rw [hsplit, List.drop_left' (by decide)]
    rw [List.take_append_of_le_length (by decide)]
    decide
  have hsplit2 : B = ((natToBits8 0 ++ natToBits8 0 ++ natToBits8 1 ++ natToBits8 0)
      ++ natToBits8 256 ++ List.replicate 1023 0) ++ (List.replicate 1025 0 ++ C) := by
    rw [hB, show (2048 : ℕ) = 1023 + 1025 from rfl, List.replicate_add]
    simp [List.append_assoc]
  have hlen1064 : ((natToBits8 0 ++ natToBits8 0 ++ natToBits8 1 ++ natToBits8 0)
      ++ natToBits8 256 ++ List.replicate 1023 0).length = 1064 := by decide
  have hrecv : (B.drop (40 + 128 * 8)).take 8 = List.replicate 8 0 := by
    rw [show 40 + 128 * 8 = 1064 from rfl, hsplit2, List.drop_left' hlen1064]
    rw [List.take_append_of_le_length (by norm_num), List.take_replicate]
    norm_num
  have htake : B.take (40 + 128 * 8) = (natToBits8 0 ++ natToBits8 0 ++ natToBits8 1
      ++ natToBits8 0) ++ natToBits8 256 ++ List.replicate 1023 0 := by
    rw [show 40 + 128 * 8 = 1064 from rfl, hsplit2]
    exact List.take_left' hlen1064
  have hsum : ((natToBits8 0 ++ natToBits8 0 ++ natToBits8 1 ++ natToBits8 0)
      ++ natToBits8 256 ++ List.replicate 1023 0).sum = 2 := by
    simp only [List.sum_append, List.sum_replicate, smul_eq_mul]
    decide
  right
  right
  rw [hL, hrecv, htake, hsum]
  decide

/-- Claim C1, amended: for every frame whose `src`, `dst`, `seq` are in
`0..255`, whose kind is DATA or ACK, whose payload bytes are in `0..255`
and whose payload is at most 255 bytes long,
`Packet.from_bits (Packet.to_bits f)` succeeds and returns a frame with
identical `src`, `dst`, `kind`, `seq` and `payload`. -/
theorem claim_C1 (p : Packet) (h : ValidFrame p) :
    Packet.from_bits p.to_bits = some p :=
  from_to_bits p h

/-- Witness for claim C1 at a concrete frame. -/
theorem claim_C1_witness :
    Packet.from_bits (Packet.to_bits ⟨1, 2, PType.DATA, 7, [72, 105]⟩)
      = some ⟨1, 2, PType.DATA, 7, [72, 105]⟩ :=
  claim_C1 ⟨1, 2, PType.DATA, 7, [72, 105]⟩ (by decide)

/-- Claim C2: processing the waveform of a well-formed DATA frame
addressed to this endpoint twice delivers the payload exactly once (the
first receive surfaces it, the second returns no app data), while both
receives construct and return an ACK response waveform whose packet
carries the same `seq` as the DATA frame. -/
theorem claim_C2 (s : HostState) (f : Packet) (t1 t2 : ℚ)
    (hs : s.mod_scheme = Scheme.ASK) (hspb : 0 < s.modem.samples_per_bit)
    (hf : ValidFrame f) (hty : f.type = PType.DATA) (hdst : f.dst = s.address)
    (hnew : (f.src, f.seq) ∉ s.received_seqs) :
    Host.receive s (modulate s.modem f.to_bits s.mod_scheme) t1
      = ((some (transmit_packet s ⟨s.address, f.src, PType.ACK, f.seq, ackPayload⟩),
          some f.payload,
          some ⟨s.address, f.src, PType.ACK, f.seq, ackPayload⟩),
         { s with received_seqs := (f.src, f.seq) :: s.received_seqs })
    ∧ Host.receive { s with received_seqs := (f.src, f.seq) :: s.received_seqs }
        (modulate s.modem f.to_bits s.mod_scheme) t2
      = ((some (transmit_packet s ⟨s.address, f.src, PType.ACK, f.seq, ackPayload⟩),
          none,
          some ⟨s.address, f.src, PType.ACK, f.seq, ackPayload⟩),
         { s with received_seqs := (f.src, f.seq) :: s.received_seqs }) := by
  constructor
  · rw [receive_data_general s f t1 hs hspb hf hty hdst]
    rw [if_neg hnew]
  · rw [receive_data_general { s with received_seqs := (f.src, f.seq) :: s.received_seqs }
      f t2 hs hspb hf hty hdst]
    rw [if_pos (by exact List.mem_cons_self _ _)]
    rfl

/-- Witness for claim C2 at a concrete endpoint and frame. -/
theorem claim_C2_witness :
    Host.receive wHost (modulate wHost.modem (Packet.to_bits ⟨1, 2, PType.DATA, 0, []⟩)
        wHost.mod_scheme) 0
      = ((some (transmit_packet wHost ⟨2, 1, PType.ACK, 0, ackPayload⟩),
          some ([] : List ℕ), some ⟨2, 1, PType.ACK, 0, ackPayload⟩),
         { wHost with received_seqs := [(1, 0)] })
    ∧ Host.receive { wHost with received_seqs := [(1, 0)] }
        (modulate wHost.modem (Packet.to_bits ⟨1, 2, PType.DATA, 0, []⟩) wHost.mod_scheme) 1
      = ((some (transmit_packet wHost ⟨2, 1, PType.ACK, 0, ackPayload⟩),
          none, some ⟨2, 1, PType.ACK, 0, ackPayload⟩),
         { wHost with received_seqs := [(1, 0)] }) :=
  claim_C2 wHost ⟨1, 2, PType.DATA, 0, []⟩ 0 1 rfl (by decide) (by decide) rfl rfl
    (by decide)

/-- Claim C3, counterexample: flipping a single header bit (position 39,
the low bit of the LEN byte — well before the trailing 8 checksum bits)
of the serialized frame `⟨0,0,DATA,0,[0x01]⟩` does NOT make `from_bits`
return `None`: the declared length drops to 0, the first payload byte is
re-read as the checksum and happens to match, and a *different* frame
(empty payload) is returned. -/
theorem claim_C3_counterexample :
    Packet.from_bits (flipBit (Packet.to_bits ⟨0, 0, PType.DATA, 0, [1]⟩) 39)
      = some ⟨0, 0, PType.DATA, 0, []⟩ := by decide

/-- Claim C3, amended: for a well-formed frame, flipping any single bit
in the SRC/DST/TYPE/SEQ fields (positions 0–31) or in the payload
(positions 40 to 40+8·len−1) — i.e. any position before the checksum
except inside the LEN byte — makes `from_bits` return `None`. -/
theorem claim_C3 (p : Packet) (h : ValidFrame p) (pos : ℕ)
    (hpos : pos < 32 ∨ (40 ≤ pos ∧ pos < 40 + 8 * p.payload.length)) :
    Packet.from_bits (flipBit p.to_bits pos) = none :=
  flip_to_bits_parse_none p h pos hpos

/-- Witness for claim C3 at a concrete frame and bit position. -/
theorem claim_C3_witness :
    Packet.from_bits (flipBit (Packet.to_bits ⟨0, 0, PType.DATA, 0, [1]⟩) 23) = none :=
  claim_C3 ⟨0, 0, PType.DATA, 0, [1]⟩ (by decide) 23 (Or.inl (by decide))

/-- Claim C4: `check_timeouts now` returns exactly the pending entries
with `now - sent_time` strictly greater than `timeout_interval`, each as
the same stored packet re-serialized (identical seq and payload, being
the identical packet); those entries get `sent_time` reset to `now`; no
entry is added or removed (same keys in the same order, same packets),
and no other host state changes. -/
theorem claim_C4 (s : HostState) (now : ℚ) :
    (Host.check_timeouts s now).1
      = (s.pending_acks.filter
          (fun e => s.timeout_interval < now - e.2.sent_time)).map
          (fun e => (transmit_packet s e.2.packet, e.2.packet))
    ∧ (Host.check_timeouts s now).2.pending_acks
      = s.pending_acks.map (fun e =>
          if s.timeout_interval < now - e.2.sent_time
          then (e.1, ⟨e.2.packet, now⟩) else e)
    ∧ (Host.check_timeouts s now).2.pending_acks.length = s.pending_acks.length
    ∧ (Host.check_timeouts s now).2.pending_acks.map Prod.fst
      = s.pending_acks.map Prod.fst
    ∧ (Host.check_timeouts s now).2.pending_acks.map (fun e => e.2.packet)
      = s.pending_acks.map (fun e => e.2.packet)
    ∧ (Host.check_timeouts s now).2.address = s.address
    ∧ (Host.check_timeouts s now).2.received_seqs = s.received_seqs
    ∧ (Host.check_timeouts s now).2.next_seq = s.next_seq
    ∧ (Host.check_timeouts s now).2.timeout_interval = s.timeout_interval := by
  refine ⟨rfl, rfl, by simp [Host.check_timeouts], ?_, ?_, rfl, rfl, rfl, rfl⟩
  · show (s.pending_acks.map fun e =>
        if s.timeout_interval < now - e.2.sent_time
        then (e.1, (⟨e.2.packet, now⟩ : PendingInfo)) else e).map Prod.fst
      = s.pending_acks.map Prod.fst
    rw [List.map_map]
    apply List.map_congr_left
    intro e _
    show ((if s.timeout_interval < now - e.2.sent_time
      then (e.1, (⟨e.2.packet, now⟩ : PendingInfo)) else e)).1 = e.1
    split <;> rfl
  · show (s.pending_acks.map fun e =>
        if s.timeout_interval < now - e.2.sent_time
        then (e.1, (⟨e.2.packet, now⟩ : PendingInfo)) else e).map (fun e => e.2.packet)
      = s.pending_acks.map (fun e => e.2.packet)
    rw [List.map_map]
    apply List.map_congr_left
    intro e _
    show ((if s.timeout_interval < now - e.2.sent_time
      then (e.1, (⟨e.2.packet, now⟩ : PendingInfo)) else e)).2.packet = e.2.packet
    split <;> rfl

/-- Witness for claim C4: at t=10 with timeout 3, the entry sent at t=0
is retransmitted and reset to t=10; the entry sent at t=9 is untouched;
neither entry is removed. -/
theorem claim_C4_witness :
    (Host.check_timeouts wTimeoutHost 10).1
      = [(transmit_packet wTimeoutHost wPkt0, wPkt0)]
    ∧ (Host.check_timeouts wTimeoutHost 10).2.pending_acks
      = [(0, ⟨wPkt0, 10⟩), (1, ⟨wPkt1, 9⟩)] := by
  obtain ⟨h1, h2, _⟩ := claim_C4 wTimeoutHost 10
  constructor
  · rw [h1]
    norm_num [wTimeoutHost]
  · rw [h2]
    norm_num [wTimeoutHost]

/-- Claim C5: for bit sequences, `Packet.from_bits bits` returns `none`
(it is a total function of the bits — the embedding of "never raises")
if and only if the total length is below 48 bits, or the declared payload
length runs past the available bits (`40 + LEN*8 + 8 > len bits`), or the
trailing 8 checksum bits differ from the recomputed additive checksum
(sum of all preceding bit values mod 256, rendered as 8 bits); otherwise
it returns a frame. -/
theorem claim_C5 (bits : List ℕ) (_hbits : ∀ b ∈ bits, b ≤ 1) :
    Packet.from_bits bits = none ↔
      bits.length < 48
      ∨ bits.length < 40 + bitsToInt ((bits.drop 32).take 8) * 8 + 8
      ∨ (bits.drop (40 + bitsToInt ((bits.drop 32).take 8) * 8)).take 8
          ≠ natToBits8 ((bits.take (40 + bitsToInt ((bits.drop 32).take 8) * 8)).sum % 256) :=
  from_bits_eq_none_iff bits

/-- Witness for claim C5 at a too-short bit sequence. -/
theorem claim_C5_witness : Packet.from_bits [0, 1] = none :=
  (claim_C5 [0, 1] (by decide)).mpr (Or.inl (by norm_num))

/-- Claim C6: in `demodulate` with scheme BPSK, once the guards pass
(nonempty signal, long enough for the reference preamble, correlation
peak at least the noise threshold), if the synchronization
cross-correlation peak value is negative then the returned bits are the
per-bit decisions with every bit inverted (`1 - b`), applied exactly
once; if the peak is nonnegative the per-bit decisions are returned
unchanged. -/
theorem claim_C6 (m : Modem) (signal : Waveform)
    (h1 : signal.isEmpty = false)
    (h2 : ¬ signal.length < (ref_preamble m Scheme.BPSK).length)
    (h3 : ¬ |syncPeakVal m signal Scheme.BPSK| < 1) :
    (syncPeakVal m signal Scheme.BPSK < 0 →
      demodulate m signal Scheme.BPSK
        = (rawDecodedBits m signal Scheme.BPSK).map (fun b => 1 - b))
    ∧ (¬ syncPeakVal m signal Scheme.BPSK < 0 →
      demodulate m signal Scheme.BPSK = rawDecodedBits m signal Scheme.BPSK) := by
  unfold demodulate
  rw [h1]
  rw [if_neg (by simp), if_neg h2, if_neg h3]
  constructor
  · intro hneg
    dsimp only
    rw [if_pos hneg]
  · intro hpos
    dsimp only
    rw [if_neg hpos]

/-- Witness for claim C6: an inverted-polarity BPSK signal (the negated
preamble waveform followed by one data sample) has correlation peak `-8`;
the raw decision for the data bit is `0` and the returned, polarity-
corrected bit is `1`. -/
theorem claim_C6_witness :
    syncPeakVal wModem [-1, 1, -1, 1, -1, 1, -1, 1, -1] Scheme.BPSK = -8
    ∧ rawDecodedBits wModem [-1, 1, -1, 1, -1, 1, -1, 1, -1] Scheme.BPSK = [0]
    ∧ demodulate wModem [-1, 1, -1, 1, -1, 1, -1, 1, -1] Scheme.BPSK = [1] := by
  have href : ref_preamble wModem Scheme.BPSK = [1, -1, 1, -1, 1, -1, 1, -1] := by
    norm_num [ref_preamble, generate_waveform, preamble, wModem]
  have hcorr : syncCorr wModem [-1, 1, -1, 1, -1, 1, -1, 1, -1] Scheme.BPSK = [-8, 8] := by
    rw [syncCorr, href]
    norm_num [correlate, dotProd, List.range_succ]
  have hidx : syncPeakIdx wModem [-1, 1, -1, 1, -1, 1, -1, 1, -1] Scheme.BPSK = 0 := by
    rw [syncPeakIdx, hcorr]
    norm_num [argmaxAbs, argmaxAbsAux]
  have hpeak : syncPeakVal wModem [-1, 1, -1, 1, -1, 1, -1, 1, -1] Scheme.BPSK = -8 := by
    rw [syncPeakVal, hcorr, hidx]
    rfl
  have hraw : rawDecodedBits wModem [-1, 1, -1, 1, -1, 1, -1, 1, -1] Scheme.BPSK = [0] := by
    rw [rawDecodedBits, hidx, href]
    norm_num [wModem, decideBit, dotProd, List.range_succ]
  refine ⟨hpeak, hraw, ?_⟩
  have h := claim_C6 wModem [-1, 1, -1, 1, -1, 1, -1, 1, -1] rfl
    (by rw [href]; norm_num) (by rw [hpeak]; norm_num)
  rw [h.1 (by rw [hpeak]; norm_num), hraw]
  decide

/-- Claim C7, counterexample: after 256 reliable sends from a fresh
endpoint, `next_seq` is 256 — it does not stay in `0..255` and does not
wrap back to 0 (`Host.send` performs a plain `next_seq += 1`). -/
theorem claim_C7_counterexample :
    (sendAll wHost (List.replicate 256 ((2 : ℕ), ([] : List ℕ), (0 : ℚ)))).next_seq = 256
    ∧ ¬ (sendAll wHost (List.replicate 256 ((2 : ℕ), ([] : List ℕ), (0 : ℚ)))).next_seq
        ≤ 255 := by
  have h := sendAll_next_seq wHost (List.replicate 256 ((2 : ℕ), ([] : List ℕ), (0 : ℚ)))
  rw [List.length_replicate] at h
  constructor
  · exact h
  · rw [h]
    norm_num

/-- Claim C7, amended: `next_seq` is an unbounded counter — after `n`
reliable sends it equals the initial value plus `n` (so after 256 sends
from a fresh endpoint it is 256, not 0).  Each reliable send builds the
DATA packet with `seq = next_seq`, keys the pending entry by that same
unreduced `next_seq`, and increments the counter; the serialized SEQ
field stores `seq % 256` (see `headerBits`), so the pending key matches
the on-the-wire u8 only while `next_seq ≤ 255`. -/
theorem claim_C7 (s : HostState) (args : List (ℕ × List ℕ × ℚ))
    (tgt : ℕ) (msg : List ℕ) (now : ℚ) :
    (sendAll s args).next_seq = s.next_seq + args.length
    ∧ (Host.send s tgt msg now true).1.2.seq = s.next_seq
    ∧ (Host.send s tgt msg now true).2.next_seq = s.next_seq + 1
    ∧ (Host.send s tgt msg now true).2.pending_acks
      = dictSet s.pending_acks s.next_seq
          ⟨⟨s.address, tgt, PType.DATA, s.next_seq, msg⟩, now⟩ :=
  ⟨sendAll_next_seq s args, rfl, rfl, rfl⟩

/-- Claim C8: a well-formed frame whose `dst` differs from the receiving
endpoint's address produces no response waveform, no delivered payload,
no response packet, and leaves the entire endpoint state unchanged. -/
theorem claim_C8 (s : HostState) (f : Packet) (t : ℚ)
    (hs : s.mod_scheme = Scheme.ASK) (hspb : 0 < s.modem.samples_per_bit)
    (hf : ValidFrame f) (hdst : f.dst ≠ s.address) :
    Host.receive s (modulate s.modem f.to_bits s.mod_scheme) t
      = ((none, none, none), s) :=
  receive_wrong_dst s f t hs hspb hf hdst

/-- Witness for claim C8 at a concrete endpoint (address 2) and a frame
addressed to 3. -/
theorem claim_C8_witness :
    Host.receive wHost
        (modulate wHost.modem (Packet.to_bits ⟨1, 3, PType.DATA, 0, []⟩) wHost.mod_scheme) 0
      = ((none, none, none), wHost) :=
  claim_C8 wHost ⟨1, 3, PType.DATA, 0, []⟩ 0 rfl (by decide) (by decide) (by decide)

/-- Claim C9: a well-formed ACK frame addressed to the endpoint produces
no response waveform (and no delivered payload) — only the matching
pending entry is removed; and in general `receive` constructs a response
waveform only when the demodulated-and-parsed frame is a DATA frame
addressed to this endpoint, so acknowledgments are never acknowledged. -/
theorem claim_C9 (s : HostState) (f : Packet) (t : ℚ)
    (hs : s.mod_scheme = Scheme.ASK) (hspb : 0 < s.modem.samples_per_bit)
    (hf : ValidFrame f) (hty : f.type = PType.ACK) (hdst : f.dst = s.address) :
    (Host.receive s (modulate s.modem f.to_bits s.mod_scheme) t).1.1 = none
    ∧ (Host.receive s (modulate s.modem f.to_bits s.mod_scheme) t).1.2.1 = none
    ∧ ∀ (s' : HostState) (sig : Waveform) (t' : ℚ) (w : Waveform),
        (Host.receive s' sig t').1.1 = some w →
        ∃ q, Packet.from_bits (demodulate s'.modem sig s'.mod_scheme) = some q
          ∧ q.type = PType.DATA ∧ q.dst = s'.address := by
  refine ⟨?_, ?_, fun s' sig t' w h => receive_response_only_data s' sig t' w h⟩
  · rw [receive_ack_general s f t hs hspb hf hty hdst]
  · rw [receive_ack_general s f t hs hspb hf hty hdst]

/-- Witness for claim C9 at a concrete endpoint and ACK frame. -/
theorem claim_C9_witness :
    (Host.receive wHost
        (modulate wHost.modem (Packet.to_bits ⟨1, 2, PType.ACK, 5, []⟩) wHost.mod_scheme)
        0).1.1 = none :=
  (claim_C9 wHost ⟨1, 2, PType.ACK, 5, []⟩ 0 rfl (by decide) (by decide) rfl rfl).1

/-- Claim C10: whenever the length and checksum checks of `from_bits`
pass, parsing succeeds — a TYPE byte of 1 yields a DATA frame and every
other TYPE value (0, 2, 7, 255, ...) yields an ACK frame; `from_bits`
never returns `none` because of an unrecognized TYPE. -/
theorem claim_C10 (bits : List ℕ)
    (h1 : ¬ bits.length < 48)
    (h2 : ¬ bits.length < 40 + bitsToInt ((bits.drop 32).take 8) * 8 + 8)
    (h3 : (bits.drop (40 + bitsToInt ((bits.drop 32).take 8) * 8)).take 8
      = calculate_crc (bits.take (40 + bitsToInt ((bits.drop 32).take 8) * 8))) :
    Packet.from_bits bits =
      some ⟨bitsToInt (bits.take 8), bitsToInt ((bits.drop 8).take 8),
            if bitsToInt ((bits.drop 16).take 8) = 1 then PType.DATA else PType.ACK,
            bitsToInt ((bits.drop 24).take 8),
            bits_to_str ((bits.drop 40).take (bitsToInt ((bits.drop 32).take 8) * 8))⟩ :=
  from_bits_eq_some_fields bits h1 h2 h3

/-- Witness for claim C10: a 48-bit frame with TYPE byte 7 parses as an
ACK frame. -/
theorem claim_C10_witness :
    Packet.from_bits wType7Bits = some ⟨0, 0, PType.ACK, 0, []⟩ := by
  have h := claim_C10 wType7Bits (by decide) (by decide) (by decide)
  rw [h]
  decide
